import Mathlib

/-!
# Verification of the oxide-proxy relay and IRC line extractor

Shallow embedding of the three source files of the repository:

* `src/irc.rs` — byte-level extraction of the verb and the `CAP`
  subcommand/trailing fields from an IRC line.  Lines are modelled as
  `List Nat` of byte values; the index-based `while` loops of the Rust
  code become structurally recursive scans over an index.
* `src/splice.rs` — the bounded splice buffer (`SpliceBuffer`) and the
  one-directional pump future (`Splicer`).  The asynchronous endpoints
  are modelled by the result each call to them returns: a read produces
  a byte chunk, would-block, or an error; a write accepts a byte count.
* `src/main.rs` — the `IoTask` wrapper and the composition of two
  independent `Splicer` tasks for one pair of connections.
-/

namespace OxideProxy

/-! ## Byte-scanning primitives (`src/irc.rs`)

The Rust loops `while i < line.len() && p(line[i]) { i += 1 }` are
embedded as `scanWhile p line i`. -/

/-- One forward `while` loop with an explicit iteration budget.  The loop
`while i < line.len() && p(line[i]) { i += 1 }` runs at most
`line.len() - i` times, so `scanWhile` below instantiates the budget with
exactly that bound; the budget is structural so that the function reduces
in the kernel. -/
def scanWhileF (p : Nat → Bool) (line : List Nat) : Nat → Nat → Nat
  | 0, i => i
  | fuel + 1, i =>
    if h : i < line.length then
      if p (line.get ⟨i, h⟩) then scanWhileF p line fuel (i + 1) else i
    else i

/-- Advance `i` while it is in bounds and `p` holds at `line[i]`
(the shape of every forward `while` loop in `irc.rs`). -/
def scanWhile (p : Nat → Bool) (line : List Nat) (i : Nat) : Nat :=
  scanWhileF p line (line.length - i) i

/-- Byte value of the space character. -/
def spaceByte : Nat := 32

/-- `while i < line.len() && line[i] == b' ' { i += 1 }` -/
def skipSpaces (line : List Nat) (i : Nat) : Nat :=
  scanWhile (fun c => c == spaceByte) line i

/-- `while i < line.len() && line[i] != b' ' { i += 1 }` -/
def skipNonSpaces (line : List Nat) (i : Nat) : Nat :=
  scanWhile (fun c => c != spaceByte) line i

/-- Skip one whitespace-delimited token and the spaces following it
(the body of the tag-, prefix-, and client-identifier-skipping blocks). -/
def skipTokenSpaces (line : List Nat) (i : Nat) : Nat :=
  skipSpaces line (skipNonSpaces line i)

/-- The tag-skipping block (`if i < line.len() && line[i] == b'@' { ... }`):
if the byte at `i` is `@` (64), skip the token and following spaces. -/
def skipTagPart (line : List Nat) (i : Nat) : Nat :=
  if line.get? i = some 64 then skipTokenSpaces line i else i

/-- The prefix-skipping block (`if i < line.len() && line[i] == b':' { ... }`):
if the byte at `i` is `:` (58), skip the token and following spaces. -/
def skipPrefixPart (line : List Nat) (i : Nat) : Nat :=
  if line.get? i = some 58 then skipTokenSpaces line i else i

/-- The common prelude of `extract_verb` and `extract_cap`: skip leading
spaces, then an optional `@`-initiated tags token plus spaces, then an
optional `:`-initiated prefix token plus spaces. -/
def skipPrelude (line : List Nat) : Nat :=
  skipPrefixPart line (skipTagPart line (skipSpaces line 0))

/-- The byte range `[i, j)` of `line`, i.e. the Rust slice `&line[i..j]`. -/
def sliceR (line : List Nat) (i j : Nat) : List Nat :=
  (line.drop i).take (j - i)

/-- `extract_verb` from `src/irc.rs`, returning the verb's byte range
`(i, j)` (the Rust function returns the slice `&line[i..j]`). -/
def extract_verb (line : List Nat) : Nat × Nat :=
  (skipPrelude line, skipNonSpaces line (skipPrelude line))

/-- The byte slice returned by the Rust `extract_verb`. -/
def extract_verb_slice (line : List Nat) : List Nat :=
  sliceR line (extract_verb line).1 (extract_verb line).2

/-- Convert a Lean string to the byte list of its characters (all test
inputs are ASCII). -/
def bytes (s : String) : List Nat :=
  s.toList.map Char.toNat

/-- The parsed form of an IRC `CAP` message (`CapMessage` in `src/irc.rs`);
the two Rust slices are represented by their byte ranges into the line. -/
structure CapMessage where
  subcommand : Nat × Nat
  trailing : Nat × Nat
deriving Repr, DecidableEq

/-- The four bytes of `b"CAP "`. -/
def capBytes : List Nat := [67, 65, 80, 32]

/-- The forward scan of `extract_cap` over the bytes after the subcommand
(`while j < line.len() { ... }` at lines 125–129 of `src/irc.rs`): `j` is
the cursor, `i` tracks the last non-space position seen, and `k` becomes
`j + 1` (and the loop breaks) at the first space followed by `:`. -/
def capScanF (line : List Nat) : Nat → Nat → Nat → Nat → Nat × Nat
  | 0, _, i, k => (i, k)
  | fuel + 1, j, i, k =>
    if h : j < line.length then
      if k = 0 ∧ line.get? (j - 1) = some spaceByte ∧ line.get ⟨j, h⟩ = 58 then
        (i, j + 1)
      else
        capScanF line fuel (j + 1) (if line.get ⟨j, h⟩ ≠ spaceByte then j else i) k
    else (i, k)

/-- The forward scan of `extract_cap`, instantiated with its exact
iteration budget `line.length - j`. -/
def capScan (line : List Nat) (j i k : Nat) : Nat × Nat :=
  capScanF line (line.length - j) j i k

/-- The backward scan of `extract_cap`
(`while j > 0 && line[j] != b' ' { j -= 1 }` at line 140 of `src/irc.rs`). -/
def backScan (line : List Nat) : Nat → Nat
  | 0 => 0
  | j + 1 => if ¬ line.get? (j + 1) = some spaceByte then backScan line j else j + 1

/-- Start of the `CAP` subcommand: after the prelude, the four bytes of
`"CAP "`, any further spaces, and — when the origin is a server — one
client-identifier token plus following spaces (lines 103–112 of
`src/irc.rs`). -/
def capSubStart (line : List Nat) (is_server : Bool) : Nat :=
  if is_server then skipTokenSpaces line (skipSpaces line (skipPrelude line + 4))
  else skipSpaces line (skipPrelude line + 4)

/-- End of the `CAP` subcommand (line 116: the next run of non-space
bytes). -/
def capSubEnd (line : List Nat) (is_server : Bool) : Nat :=
  skipNonSpaces line (capSubStart line is_server)

/-- The trailing range computed from the position `j` just after the
subcommand (lines 123–145 of `src/irc.rs`): `capScan` yields the last
non-space position `i` and the after-colon position `k` of the Rust loop. -/
def capTrailing (line : List Nat) (j : Nat) : Nat × Nat :=
  if (capScan line j 0 0).2 ≠ 0 then
    ((capScan line j 0 0).2, line.length)
  else if (capScan line j 0 0).1 ≠ 0 then
    (backScan line (capScan line j 0 0).1 + 1, (capScan line j 0 0).1 + 1)
  else (0, 0)

/-- `extract_cap` from `src/irc.rs`, with slices represented as byte
ranges.  Returns `none` exactly where the Rust function returns `None`
(line 102: the four bytes at the post-prelude position are not `"CAP "`). -/
def extract_cap (line : List Nat) (is_server : Bool) : Option CapMessage :=
  if line.length < skipPrelude line + 4 ∨
      sliceR line (skipPrelude line) (skipPrelude line + 4) ≠ capBytes then
    none
  else
    some ⟨(capSubStart line is_server, capSubEnd line is_server),
          capTrailing line (capSubEnd line is_server)⟩

/-! ## Lemmas about the scanning primitives -/

theorem scanWhileF_ge (p : Nat → Bool) (line : List Nat) :
    ∀ fuel i, i ≤ scanWhileF p line fuel i := by
  intro fuel
  induction fuel with
  | zero => intro i; exact le_refl i
  | succ fuel ih =>
    intro i
    rw [scanWhileF]
    split
    · split
      · exact le_trans (Nat.le_succ i) (ih (i + 1))
      · exact le_refl i
    · exact le_refl i

theorem scanWhileF_le_length (p : Nat → Bool) (line : List Nat) :
    ∀ fuel i, i ≤ line.length → scanWhileF p line fuel i ≤ line.length := by
  intro fuel
  induction fuel with
  | zero => intro i h; exact h
  | succ fuel ih =>
    intro i h
    rw [scanWhileF]
    split
    · split
      · next h1 _ => exact ih (i + 1) h1
      · exact h
    · exact h

theorem scanWhileF_holds (p : Nat → Bool) (line : List Nat) :
    ∀ fuel i m, i ≤ m → m < scanWhileF p line fuel i →
      ∃ c, line.get? m = some c ∧ p c = true := by
  intro fuel
  induction fuel with
  | zero => intro i m him hm; rw [scanWhileF] at hm; omega
  | succ fuel ih =>
    intro i m him hm
    rw [scanWhileF] at hm
    by_cases h : i < line.length
    · rw [dif_pos h] at hm
      by_cases hp : p (line.get ⟨i, h⟩) = true
      · rw [if_pos hp] at hm
        rcases Nat.eq_or_lt_of_le him with heq | hlt
        · subst heq
          exact ⟨line.get ⟨i, h⟩, List.get?_eq_get h, hp⟩
        · exact ih (i + 1) m hlt hm
      · rw [if_neg hp] at hm; omega
    · rw [dif_neg h] at hm; omega

theorem scanWhileF_stop (p : Nat → Bool) (line : List Nat) :
    ∀ fuel i, line.length - i ≤ fuel →
      ∀ c, line.get? (scanWhileF p line fuel i) = some c → p c = false := by
  intro fuel
  induction fuel with
  | zero =>
    intro i hfuel c hc
    rw [scanWhileF] at hc
    rw [List.get?_eq_none.mpr (by omega)] at hc
    cases hc
  | succ fuel ih =>
    intro i hfuel c hc
    rw [scanWhileF] at hc
    by_cases h : i < line.length
    · rw [dif_pos h] at hc
      by_cases hp : p (line.get ⟨i, h⟩) = true
      · rw [if_pos hp] at hc
        exact ih (i + 1) (by omega) c hc
      · rw [if_neg hp] at hc
        rw [List.get?_eq_get h] at hc
        cases hc
        exact Bool.eq_false_iff.mpr hp
    · rw [dif_neg h] at hc
      rw [List.get?_eq_none.mpr (by omega)] at hc
      cases hc

theorem scanWhile_ge (p : Nat → Bool) (line : List Nat) (i : Nat) :
    i ≤ scanWhile p line i :=
  scanWhileF_ge p line _ i

theorem scanWhile_le_length (p : Nat → Bool) (line : List Nat) (i : Nat)
    (h : i ≤ line.length) : scanWhile p line i ≤ line.length :=
  scanWhileF_le_length p line _ i h

theorem scanWhile_holds (p : Nat → Bool) (line : List Nat) (i : Nat) :
    ∀ m, i ≤ m → m < scanWhile p line i →
      ∃ c, line.get? m = some c ∧ p c = true :=
  scanWhileF_holds p line _ i

theorem scanWhile_stop (p : Nat → Bool) (line : List Nat) (i : Nat) :
    ∀ c, line.get? (scanWhile p line i) = some c → p c = false :=
  scanWhileF_stop p line _ i (le_refl _)

theorem scanWhile_of_ge (p : Nat → Bool) (line : List Nat) (i : Nat)
    (h : line.length ≤ i) : scanWhile p line i = i := by
  have h0 : line.length - i = 0 := by omega
  rw [scanWhile, h0, scanWhileF]

theorem scanWhile_advance (p : Nat → Bool) (line : List Nat) (i : Nat)
    (h : i < line.length) (hp : p (line.get ⟨i, h⟩) = true) :
    i < scanWhile p line i := by
  have h1 : line.length - i = (line.length - (i + 1)) + 1 := by omega
  rw [scanWhile, h1, scanWhileF, dif_pos h, if_pos hp]
  have := scanWhileF_ge p line (line.length - (i + 1)) (i + 1)
  omega

theorem skipSpaces_ge (line : List Nat) (i : Nat) : i ≤ skipSpaces line i :=
  scanWhile_ge _ line i

theorem skipSpaces_le_length (line : List Nat) (i : Nat) (h : i ≤ line.length) :
    skipSpaces line i ≤ line.length :=
  scanWhile_le_length _ line i h

theorem skipSpaces_stop (line : List Nat) (i : Nat) (c : Nat)
    (hc : line.get? (skipSpaces line i) = some c) : c ≠ spaceByte := by
  have := scanWhile_stop (fun c => c == spaceByte) line i c hc
  simpa using this

theorem skipSpaces_prev (line : List Nat) (i : Nat)
    (h : i < skipSpaces line i) :
    line.get? (skipSpaces line i - 1) = some spaceByte := by
  have h' : i < scanWhile (fun c => c == spaceByte) line i := h
  obtain ⟨c, hc, hp⟩ :=
    scanWhile_holds (fun c => c == spaceByte) line i
      (scanWhile (fun c => c == spaceByte) line i - 1)
      (by omega) (by omega)
  simp only [beq_iff_eq] at hp
  show line.get? (scanWhile (fun c => c == spaceByte) line i - 1) = some spaceByte
  rw [hc, hp]

theorem skipNonSpaces_ge (line : List Nat) (i : Nat) : i ≤ skipNonSpaces line i :=
  scanWhile_ge _ line i

theorem skipNonSpaces_le_length (line : List Nat) (i : Nat) (h : i ≤ line.length) :
    skipNonSpaces line i ≤ line.length :=
  scanWhile_le_length _ line i h

theorem skipNonSpaces_stop (line : List Nat) (i : Nat) (c : Nat)
    (hc : line.get? (skipNonSpaces line i) = some c) : c = spaceByte := by
  have := scanWhile_stop (fun c => c != spaceByte) line i c hc
  simpa using this

theorem skipNonSpaces_holds (line : List Nat) (i m c : Nat)
    (him : i ≤ m) (hm : m < skipNonSpaces line i)
    (hc : line.get? m = some c) : c ≠ spaceByte := by
  obtain ⟨c', hc', hp⟩ :=
    scanWhile_holds (fun c => c != spaceByte) line i m him hm
  rw [hc] at hc'
  cases hc'
  simpa using hp

theorem skipTokenSpaces_ge (line : List Nat) (i : Nat) :
    i ≤ skipTokenSpaces line i :=
  le_trans (skipNonSpaces_ge line i) (skipSpaces_ge line _)

theorem skipTokenSpaces_le_length (line : List Nat) (i : Nat)
    (h : i ≤ line.length) : skipTokenSpaces line i ≤ line.length :=
  skipSpaces_le_length line _ (skipNonSpaces_le_length line i h)

theorem skipTokenSpaces_stop (line : List Nat) (i : Nat) (c : Nat)
    (hc : line.get? (skipTokenSpaces line i) = some c) : c ≠ spaceByte :=
  skipSpaces_stop line _ c hc

theorem skipTokenSpaces_prev (line : List Nat) (i : Nat)
    (h : skipTokenSpaces line i < line.length) :
    line.get? (skipTokenSpaces line i - 1) = some spaceByte := by
  rcases Nat.lt_or_ge (skipNonSpaces line i)
      (skipSpaces line (skipNonSpaces line i)) with hlt | hge
  · exact skipSpaces_prev line _ hlt
  · exfalso
    have heq : skipTokenSpaces line i = skipNonSpaces line i :=
      le_antisymm hge (skipSpaces_ge line _)
    rw [heq] at h
    have hc := List.get?_eq_get h
    have h1 := skipNonSpaces_stop line i _ hc
    have h2 := skipSpaces_stop line (skipNonSpaces line i) _
      (by show line.get? (skipTokenSpaces line i) = _; rw [heq]; exact hc)
    exact h2 h1

theorem skipTagPart_ge (line : List Nat) (i : Nat) : i ≤ skipTagPart line i := by
  unfold skipTagPart
  split
  · exact skipTokenSpaces_ge line i
  · exact le_refl i

theorem skipTagPart_le_length (line : List Nat) (i : Nat) (h : i ≤ line.length) :
    skipTagPart line i ≤ line.length := by
  unfold skipTagPart
  split
  · exact skipTokenSpaces_le_length line i h
  · exact h

theorem skipTagPart_stop (line : List Nat) (i : Nat)
    (h0 : ∀ c, line.get? i = some c → c ≠ spaceByte) :
    ∀ c, line.get? (skipTagPart line i) = some c → c ≠ spaceByte := by
  unfold skipTagPart
  split
  · exact skipTokenSpaces_stop line i
  · exact h0

theorem skipTagPart_prev (line : List Nat) (i : Nat)
    (h0 : i = 0 ∨ line.get? (i - 1) = some spaceByte) :
    skipTagPart line i < line.length →
      skipTagPart line i = 0 ∨ line.get? (skipTagPart line i - 1) = some spaceByte := by
  unfold skipTagPart
  split
  · exact fun h => Or.inr (skipTokenSpaces_prev line i h)
  · exact fun _ => h0

theorem skipPrefixPart_ge (line : List Nat) (i : Nat) : i ≤ skipPrefixPart line i := by
  unfold skipPrefixPart
  split
  · exact skipTokenSpaces_ge line i
  · exact le_refl i

theorem skipPrefixPart_le_length (line : List Nat) (i : Nat) (h : i ≤ line.length) :
    skipPrefixPart line i ≤ line.length := by
  unfold skipPrefixPart
  split
  · exact skipTokenSpaces_le_length line i h
  · exact h

theorem skipPrefixPart_stop (line : List Nat) (i : Nat)
    (h0 : ∀ c, line.get? i = some c → c ≠ spaceByte) :
    ∀ c, line.get? (skipPrefixPart line i) = some c → c ≠ spaceByte := by
  unfold skipPrefixPart
  split
  · exact skipTokenSpaces_stop line i
  · exact h0

theorem skipPrefixPart_prev (line : List Nat) (i : Nat)
    (h0 : i = 0 ∨ line.get? (i - 1) = some spaceByte) :
    skipPrefixPart line i < line.length →
      skipPrefixPart line i = 0 ∨ line.get? (skipPrefixPart line i - 1) = some spaceByte := by
  unfold skipPrefixPart
  split
  · exact fun h => Or.inr (skipTokenSpaces_prev line i h)
  · exact fun _ => h0

theorem skipPrelude_le_length (line : List Nat) :
    skipPrelude line ≤ line.length :=
  skipPrefixPart_le_length line _
    (skipTagPart_le_length line _ (skipSpaces_le_length line 0 (Nat.zero_le _)))

theorem skipPrelude_stop (line : List Nat) (c : Nat)
    (hc : line.get? (skipPrelude line) = some c) : c ≠ spaceByte :=
  skipPrefixPart_stop line _
    (skipTagPart_stop line _ (skipSpaces_stop line 0)) c hc

theorem skipPrelude_prev (line : List Nat)
    (h : skipPrelude line < line.length) :
    skipPrelude line = 0 ∨ line.get? (skipPrelude line - 1) = some spaceByte := by
  refine skipPrefixPart_prev line _ ?_ h
  have h2 : skipTagPart line (skipSpaces line 0) < line.length :=
    lt_of_le_of_lt (skipPrefixPart_ge line _) h
  refine skipTagPart_prev line _ ?_ h2
  rcases Nat.eq_zero_or_pos (skipSpaces line 0) with h0 | h0
  · exact Or.inl h0
  · exact Or.inr (skipSpaces_prev line 0 h0)

theorem skipSpaces_holds (line : List Nat) (i m : Nat)
    (him : i ≤ m) (hm : m < skipSpaces line i) :
    line.get? m = some spaceByte := by
  obtain ⟨c, hc, hp⟩ := scanWhile_holds (fun c => c == spaceByte) line i m him hm
  simp only [beq_iff_eq] at hp
  rw [hc, hp]

theorem skipNonSpaces_of_ge (line : List Nat) (i : Nat)
    (h : line.length ≤ i) : skipNonSpaces line i = i :=
  scanWhile_of_ge _ line i h

theorem skipNonSpaces_advance (line : List Nat) (i c : Nat)
    (hc : line.get? i = some c) (hne : c ≠ spaceByte) :
    i < skipNonSpaces line i := by
  have h : i < line.length := by
    by_contra hcon
    rw [List.get?_eq_none.mpr (by omega)] at hc
    cases hc
  have hg : line.get ⟨i, h⟩ = c := by
    have := List.get?_eq_get h
    rw [hc] at this
    exact (Option.some_injective _ this).symm
  refine scanWhile_advance _ line i h ?_
  rw [hg]
  simpa using hne

/-! ## Lemmas about `capScan` and `backScan` -/

/-- Position `m` holds a `:` immediately preceded by a space (the break
condition of the forward scan in `extract_cap`). -/
def spaceColonAt (line : List Nat) (m : Nat) : Prop :=
  line.get? (m - 1) = some spaceByte ∧ line.get? m = some 58

theorem capScanF_colon (line : List Nat) :
    ∀ fuel j i, line.length - j ≤ fuel →
      (capScanF line fuel j i 0).2 ≠ 0 →
      ∃ j', (capScanF line fuel j i 0).2 = j' + 1 ∧ j ≤ j' ∧ j' < line.length ∧
        spaceColonAt line j' ∧
        ∀ m, j ≤ m → m < j' → ¬ spaceColonAt line m := by
  intro fuel
  induction fuel with
  | zero =>
    intro j i hfuel h0
    rw [capScanF] at h0
    simp at h0
  | succ fuel ih =>
    intro j i hfuel h0
    rw [capScanF] at h0 ⊢
    by_cases h : j < line.length
    · rw [dif_pos h] at h0 ⊢
      by_cases hbrk : 0 = 0 ∧ line.get? (j - 1) = some spaceByte ∧ line.get ⟨j, h⟩ = 58
      · rw [if_pos hbrk] at h0 ⊢
        refine ⟨j, rfl, le_refl j, h, ⟨hbrk.2.1, ?_⟩, fun m hm1 hm2 => by omega⟩
        rw [List.get?_eq_get h, hbrk.2.2]
      · rw [if_neg hbrk] at h0 ⊢
        obtain ⟨j', he, hj1, hj2, hsc, hmin⟩ := ih (j + 1) _ (by omega) h0
        refine ⟨j', he, by omega, hj2, hsc, fun m hm1 hm2 => ?_⟩
        rcases Nat.eq_or_lt_of_le hm1 with heq | hlt
        · subst heq
          intro ⟨hc1, hc2⟩
          apply hbrk
          refine ⟨rfl, hc1, ?_⟩
          rw [List.get?_eq_get h] at hc2
          exact Option.some_injective _ hc2
        · exact hmin m hlt hm2
    · rw [dif_neg h] at h0
      simp at h0

theorem capScanF_no_colon (line : List Nat) :
    ∀ fuel j i, line.length - j ≤ fuel →
      (capScanF line fuel j i 0).2 = 0 →
      ((capScanF line fuel j i 0).1 = i ∧
        ∀ m, j ≤ m → m < line.length → line.get? m = some spaceByte) ∨
      (j ≤ (capScanF line fuel j i 0).1 ∧ (capScanF line fuel j i 0).1 < line.length ∧
        ¬ line.get? (capScanF line fuel j i 0).1 = some spaceByte ∧
        ∀ m, (capScanF line fuel j i 0).1 < m → m < line.length →
          line.get? m = some spaceByte) := by
  intro fuel
  induction fuel with
  | zero =>
    intro j i hfuel _
    rw [capScanF]
    exact Or.inl ⟨rfl, fun m hm1 hm2 => by omega⟩
  | succ fuel ih =>
    intro j i hfuel h0
    rw [capScanF] at h0 ⊢
    by_cases h : j < line.length
    · rw [dif_pos h] at h0 ⊢
      by_cases hbrk : 0 = 0 ∧ line.get? (j - 1) = some spaceByte ∧ line.get ⟨j, h⟩ = 58
      · rw [if_pos hbrk] at h0
        simp at h0
      · rw [if_neg hbrk] at h0 ⊢
        by_cases hsp : line.get ⟨j, h⟩ ≠ spaceByte
        · rw [if_pos hsp] at h0 ⊢
          rcases ih (j + 1) j (by omega) h0 with ⟨he, hall⟩ | ⟨h1, h2, h3, h4⟩
          · refine Or.inr ⟨he.ge, ?_, ?_, ?_⟩
            · rw [he]; exact h
            · rw [he, List.get?_eq_get h]
              intro hcon
              exact hsp (Option.some_injective _ hcon)
            · intro m hm1 hm2
              rw [he] at hm1
              exact hall m (by omega) hm2
          · exact Or.inr ⟨by omega, h2, h3, h4⟩
        · rw [if_neg hsp] at h0 ⊢
          push_neg at hsp
          rcases ih (j + 1) i (by omega) h0 with ⟨he, hall⟩ | ⟨h1, h2, h3, h4⟩
          · refine Or.inl ⟨he, fun m hm1 hm2 => ?_⟩
            rcases Nat.eq_or_lt_of_le hm1 with heq | hlt
            · subst heq
              rw [List.get?_eq_get h, hsp]
            · exact hall m hlt hm2
          · exact Or.inr ⟨by omega, h2, h3, h4⟩
    · rw [dif_neg h] at h0 ⊢
      exact Or.inl ⟨rfl, fun m hm1 hm2 => by omega⟩

theorem backScan_le (line : List Nat) : ∀ j, backScan line j ≤ j := by
  intro j
  induction j with
  | zero => rw [backScan]
  | succ j ih =>
    rw [backScan]
    split
    · exact le_trans ih (Nat.le_succ j)
    · exact le_refl _

theorem backScan_stop (line : List Nat) :
    ∀ j, backScan line j = 0 ∨ line.get? (backScan line j) = some spaceByte := by
  intro j
  induction j with
  | zero => exact Or.inl (by rw [backScan])
  | succ j ih =>
    rw [backScan]
    split
    · exact ih
    · next h =>
      push_neg at h
      exact Or.inr h

theorem backScan_between (line : List Nat) :
    ∀ j m, backScan line j < m → m ≤ j → ¬ line.get? m = some spaceByte := by
  intro j
  induction j with
  | zero =>
    intro m h1 h2
    rw [backScan] at h1
    omega
  | succ j ih =>
    intro m h1 h2
    rw [backScan] at h1
    revert h1
    split
    · next hc =>
      intro h1
      rcases Nat.eq_or_lt_of_le h2 with heq | hlt
      · subst heq; exact hc
      · exact ih m h1 (by omega)
    · intro h1
      omega

theorem capScanF_no_colon_nopat (line : List Nat) :
    ∀ fuel j i, line.length - j ≤ fuel →
      (capScanF line fuel j i 0).2 = 0 →
      ∀ m, j ≤ m → m < line.length → ¬ spaceColonAt line m := by
  intro fuel
  induction fuel with
  | zero =>
    intro j i hfuel _ m hm1 hm2
    omega
  | succ fuel ih =>
    intro j i hfuel h0 m hm1 hm2
    rw [capScanF] at h0
    by_cases h : j < line.length
    · rw [dif_pos h] at h0
      by_cases hbrk : 0 = 0 ∧ line.get? (j - 1) = some spaceByte ∧ line.get ⟨j, h⟩ = 58
      · rw [if_pos hbrk] at h0
        simp at h0
      · rw [if_neg hbrk] at h0
        rcases Nat.eq_or_lt_of_le hm1 with heq | hlt
        · subst heq
          intro ⟨hc1, hc2⟩
          apply hbrk
          refine ⟨rfl, hc1, ?_⟩
          rw [List.get?_eq_get h] at hc2
          exact Option.some_injective _ hc2
        · exact ih (j + 1) _ (by omega) h0 m hlt hm2
    · omega

theorem backScan_lt (line : List Nat) (j : Nat)
    (hj : 0 < j) (hns : ¬ line.get? j = some spaceByte) :
    backScan line j < j := by
  cases j with
  | zero => omega
  | succ j =>
    rw [backScan, if_pos hns]
    exact Nat.lt_succ_of_le (backScan_le line j)

theorem backScan_ge_space (line : List Nat) (s : Nat)
    (hsp : line.get? s = some spaceByte) :
    ∀ j, s ≤ j → s ≤ backScan line j := by
  intro j
  induction j with
  | zero =>
    intro h
    rw [backScan]
    exact h
  | succ j ih =>
    intro h
    rw [backScan]
    split
    · next hc =>
      refine ih ?_
      rcases Nat.eq_or_lt_of_le h with heq | hlt
      · exact absurd (heq ▸ hsp) hc
      · omega
    · exact h

/-! ## Concrete example lines (byte values of the spec's literal cases) -/

/-- `"  @tag=value  TEST    arg :long arg"` -/
def exLineVerbTags : List Nat :=
  [32, 32, 64, 116, 97, 103, 61, 118, 97, 108, 117, 101, 32, 32, 84, 69, 83, 84,
   32, 32, 32, 32, 97, 114, 103, 32, 58, 108, 111, 110, 103, 32, 97, 114, 103]

/-- `":server   "` -/
def exLineVerbPrefix : List Nat :=
  [58, 115, 101, 114, 118, 101, 114, 32, 32, 32]

/-- `"CAP REQ :multi-prefix sasl"` -/
def exLineCapReq : List Nat :=
  [67, 65, 80, 32, 82, 69, 81, 32, 58, 109, 117, 108, 116, 105, 45, 112, 114,
   101, 102, 105, 120, 32, 115, 97, 115, 108]

/-- `"CAP * ACK multi-prefix sasl"` -/
def exLineCapAck : List Nat :=
  [67, 65, 80, 32, 42, 32, 65, 67, 75, 32, 109, 117, 108, 116, 105, 45, 112,
   114, 101, 102, 105, 120, 32, 115, 97, 115, 108]

/-- `"NICK"` -/
def exLineNick : List Nat := [78, 73, 67, 75]

/-! ## Facts about a successful `extract_cap` -/

theorem capScan_eq_capScanF (line : List Nat) (j i k : Nat) :
    capScan line j i k = capScanF line (line.length - j) j i k := rfl

theorem extract_cap_some (line : List Nat) (is_server : Bool) (msg : CapMessage)
    (h : extract_cap line is_server = some msg) :
    skipPrelude line + 4 ≤ line.length ∧
    sliceR line (skipPrelude line) (skipPrelude line + 4) = capBytes ∧
    msg = ⟨(capSubStart line is_server, capSubEnd line is_server),
           capTrailing line (capSubEnd line is_server)⟩ := by
  unfold extract_cap at h
  split at h
  · cases h
  · next hg =>
    push_neg at hg
    exact ⟨by omega, hg.2, (Option.some_injective _ h).symm⟩

theorem capSubStart_le_length (line : List Nat) (is_server : Bool)
    (h4 : skipPrelude line + 4 ≤ line.length) :
    capSubStart line is_server ≤ line.length := by
  unfold capSubStart
  split
  · exact skipTokenSpaces_le_length line _ (skipSpaces_le_length line _ h4)
  · exact skipSpaces_le_length line _ h4

theorem capSubEnd_le_length (line : List Nat) (is_server : Bool)
    (h4 : skipPrelude line + 4 ≤ line.length) :
    capSubEnd line is_server ≤ line.length :=
  skipNonSpaces_le_length line _ (capSubStart_le_length line is_server h4)

theorem capSubStart_ge (line : List Nat) (is_server : Bool) :
    skipPrelude line + 4 ≤ capSubStart line is_server := by
  unfold capSubStart
  split
  · exact le_trans (skipSpaces_ge line _) (skipTokenSpaces_ge line _)
  · exact skipSpaces_ge line _

theorem capSubEnd_ge (line : List Nat) (is_server : Bool) :
    skipPrelude line + 4 ≤ capSubEnd line is_server :=
  le_trans (capSubStart_ge line is_server) (skipNonSpaces_ge line _)

theorem capTrailing_valid (line : List Nat) (j : Nat) :
    (capTrailing line j).1 ≤ (capTrailing line j).2 ∧
    (capTrailing line j).2 ≤ line.length := by
  unfold capTrailing
  split
  · next hk =>
    rw [capScan_eq_capScanF] at hk
    obtain ⟨j', he, _, hj2, _, _⟩ :=
      capScanF_colon line (line.length - j) j 0 (le_refl _) hk
    rw [capScan_eq_capScanF, he]
    exact ⟨by omega, le_refl _⟩
  · split
    · next hk hi =>
      rw [capScan_eq_capScanF] at hk hi ⊢
      push_neg at hk
      rcases capScanF_no_colon line (line.length - j) j 0 (le_refl _) hk with
        ⟨he, _⟩ | ⟨_, hlt, _, _⟩
      · exact absurd he hi
      · have := backScan_le line (capScanF line (line.length - j) j 0 0).1
        exact ⟨by omega, by omega⟩
    · exact ⟨le_refl 0, Nat.zero_le _⟩

/-- Formalisation of the spec's "the trailing parameter is only the
last whitespace-delimited token of the remainder": the range `[a, e)`
lies after the subcommand-end position `j0`, is non-empty, consists of
non-space bytes, is immediately preceded by a space, and everything
after it up to the end of the line is spaces (so it is the *last*
token). -/
def isLastTokenRange (line : List Nat) (j0 a e : Nat) : Prop :=
  j0 < a ∧ a < e ∧ e ≤ line.length ∧
  line.get? (a - 1) = some spaceByte ∧
  (∀ m, a ≤ m → m < e → ¬ line.get? m = some spaceByte) ∧
  (∀ m, e ≤ m → m < line.length → line.get? m = some spaceByte)

/-- Full case analysis of the trailing-range computation, phrased in the
spec's terms: first space-followed-by-colon wins; otherwise the last
whitespace-delimited token; otherwise empty. -/
theorem capTrailing_cases (line : List Nat) (j0 : Nat)
    (hj0pos : 0 < j0)
    (hj0sp : ∀ c, line.get? j0 = some c → c = spaceByte) :
    ((∃ m, j0 ≤ m ∧ m < line.length ∧ spaceColonAt line m) →
      ∃ m, j0 ≤ m ∧ m < line.length ∧ spaceColonAt line m ∧
        (∀ m', j0 ≤ m' → m' < m → ¬ spaceColonAt line m') ∧
        capTrailing line j0 = (m + 1, line.length)) ∧
    ((∀ m, j0 ≤ m → m < line.length → ¬ spaceColonAt line m) →
      ((∃ m c, j0 ≤ m ∧ m < line.length ∧ line.get? m = some c ∧ c ≠ spaceByte) →
        isLastTokenRange line j0 (capTrailing line j0).1 (capTrailing line j0).2) ∧
      ((∀ m, j0 ≤ m → m < line.length → line.get? m = some spaceByte) →
        (capTrailing line j0).1 = (capTrailing line j0).2)) := by
  constructor
  · rintro ⟨m, hm1, hm2, hsc⟩
    have hk : (capScanF line (line.length - j0) j0 0 0).2 ≠ 0 := by
      intro h0
      exact capScanF_no_colon_nopat line _ j0 0 (le_refl _) h0 m hm1 hm2 hsc
    obtain ⟨j', he, hj1, hj2, hsc', hmin⟩ :=
      capScanF_colon line _ j0 0 (le_refl _) hk
    refine ⟨j', hj1, hj2, hsc', hmin, ?_⟩
    unfold capTrailing
    rw [capScan_eq_capScanF, if_pos hk, he]
  · intro hNo
    have hk : (capScanF line (line.length - j0) j0 0 0).2 = 0 := by
      by_contra hk
      obtain ⟨j', _, hj1, hj2, hsc', _⟩ :=
        capScanF_colon line _ j0 0 (le_refl _) hk
      exact hNo j' hj1 hj2 hsc'
    constructor
    · rintro ⟨m, c, hm1, hm2, hc, hcns⟩
      rcases capScanF_no_colon line _ j0 0 (le_refl _) hk with
        ⟨_, hall⟩ | ⟨hli1, hli2, hli3, hli4⟩
      · rw [hall m hm1 hm2] at hc
        exact absurd (Option.some_injective _ hc).symm hcns
      · have hline : capTrailing line j0 =
            (backScan line (capScanF line (line.length - j0) j0 0 0).1 + 1,
             (capScanF line (line.length - j0) j0 0 0).1 + 1) := by
          unfold capTrailing
          rw [capScan_eq_capScanF, if_neg (by simpa using hk), if_pos (by omega)]
        rw [hline]
        have hj0lt : j0 < line.length := lt_of_le_of_lt hli1 hli2
        have hsp0 : line.get? j0 = some spaceByte := by
          have hg := List.get?_eq_get hj0lt
          rw [hg, hj0sp _ hg]
        have hlij0 : j0 < (capScanF line (line.length - j0) j0 0 0).1 := by
          rcases Nat.eq_or_lt_of_le hli1 with heq | hlt
          · rw [← heq] at hli3
            exact absurd hsp0 hli3
          · exact hlt
        have hsge : j0 ≤ backScan line (capScanF line (line.length - j0) j0 0 0).1 :=
          backScan_ge_space line j0 hsp0 _ (le_of_lt hlij0)
        have hslt : backScan line (capScanF line (line.length - j0) j0 0 0).1 <
            (capScanF line (line.length - j0) j0 0 0).1 :=
          backScan_lt line _ (by omega) hli3
        refine ⟨by omega, by omega, by omega, ?_, ?_, ?_⟩
        · rcases backScan_stop line (capScanF line (line.length - j0) j0 0 0).1 with
            h0 | hsp
          · omega
          · simpa using hsp
        · intro m' hma hme
          exact backScan_between line (capScanF line (line.length - j0) j0 0 0).1 m'
            (by omega) (by omega)
        · intro m' hme hml
          exact hli4 m' (by omega) hml
    · intro hAll
      rcases capScanF_no_colon line _ j0 0 (le_refl _) hk with
        ⟨he, _⟩ | ⟨hli1, hli2, hli3, _⟩
      · unfold capTrailing
        rw [capScan_eq_capScanF, if_neg (by simpa using hk), if_neg (by simpa using he)]
      · exact absurd (hAll _ hli1 hli2) hli3

/-! ## Claim C9 — totality of the extractors -/

/-- **C9.** `extract_verb` and `extract_cap` are total functions of the
line and the `is_server` flag (they are definable as total Lean
functions over arbitrary byte lists), and every range they return is a
valid subrange of the input: the verb range and, on a match, the
subcommand and trailing ranges all satisfy `start ≤ stop ≤ line.length`.
Malformed input yields `none` or an empty range, never a fault. -/
theorem extractor_total :
    ∀ (line : List Nat) (is_server : Bool),
      ((extract_verb line).1 ≤ (extract_verb line).2 ∧
        (extract_verb line).2 ≤ line.length) ∧
      ∀ msg, extract_cap line is_server = some msg →
        msg.subcommand.1 ≤ msg.subcommand.2 ∧ msg.subcommand.2 ≤ line.length ∧
        msg.trailing.1 ≤ msg.trailing.2 ∧ msg.trailing.2 ≤ line.length := by
  intro line is_server
  constructor
  · exact ⟨skipNonSpaces_ge line _,
      skipNonSpaces_le_length line _ (skipPrelude_le_length line)⟩
  · intro msg h
    obtain ⟨h4, _, hm⟩ := extract_cap_some line is_server msg h
    subst hm
    refine ⟨skipNonSpaces_ge line _, capSubEnd_le_length line is_server h4, ?_, ?_⟩
    · exact (capTrailing_valid line _).1
    · exact (capTrailing_valid line _).2

/-- A `CapMessage` value used by concrete instantiations: the ranges
`extract_cap` returns on `"CAP REQ :multi-prefix sasl"` as a client line
(subcommand `[4,7)` = `REQ`, trailing `[9,26)` = `multi-prefix sasl`). -/
def capReqMsg : CapMessage := ⟨(4, 7), (9, 26)⟩

/-- Witness for C9: the hypotheses of `extractor_total` hold at the
concrete line `"CAP REQ :multi-prefix sasl"`. -/
theorem extractor_total_witness :
    extract_cap exLineCapReq false = some capReqMsg ∧
    capReqMsg.subcommand.1 ≤ capReqMsg.subcommand.2 ∧
    capReqMsg.subcommand.2 ≤ exLineCapReq.length ∧
    capReqMsg.trailing.1 ≤ capReqMsg.trailing.2 ∧
    capReqMsg.trailing.2 ≤ exLineCapReq.length :=
  ⟨by decide, (extractor_total exLineCapReq false).2 capReqMsg (by decide)⟩

/-! ## Claim C5 — `extract_cap` field extraction -/

/-- **C5.** For every line on which `extract_cap` succeeds: with
`is_server = true` exactly one extra whitespace-delimited token after
`"CAP "` is skipped before the subcommand and never with
`is_server = false` (conjunct 3, relating the two modes on the same
line); the subcommand is the next maximal run of non-space bytes
(conjunct 4); the trailing range is everything after the first
space-then-`:` when one exists after the subcommand, otherwise the last
whitespace-delimited token of the remainder when any non-space byte
follows, otherwise empty (conjunct 5); and the spec's two literal cases
hold (conjuncts 1 and 2). -/
theorem extract_cap_fields :
    ((extract_cap exLineCapReq false).map (fun m =>
        (sliceR exLineCapReq m.subcommand.1 m.subcommand.2,
         sliceR exLineCapReq m.trailing.1 m.trailing.2)) =
      some ([82, 69, 81],
        [109, 117, 108, 116, 105, 45, 112, 114, 101, 102, 105, 120, 32,
         115, 97, 115, 108])) ∧
    ((extract_cap exLineCapAck true).map (fun m =>
        (sliceR exLineCapAck m.subcommand.1 m.subcommand.2,
         sliceR exLineCapAck m.trailing.1 m.trailing.2)) =
      some ([65, 67, 75], [115, 97, 115, 108])) ∧
    (∀ (line : List Nat) (mc ms : CapMessage),
      extract_cap line false = some mc → extract_cap line true = some ms →
        mc.subcommand.1 = skipSpaces line (skipPrelude line + 4) ∧
        ms.subcommand.1 = skipTokenSpaces line mc.subcommand.1) ∧
    (∀ (line : List Nat) (b : Bool) (msg : CapMessage),
      extract_cap line b = some msg →
        msg.subcommand.2 = skipNonSpaces line msg.subcommand.1 ∧
        (∀ m c, msg.subcommand.1 ≤ m → m < msg.subcommand.2 →
          line.get? m = some c → c ≠ spaceByte) ∧
        (∀ c, line.get? msg.subcommand.2 = some c → c = spaceByte)) ∧
    (∀ (line : List Nat) (b : Bool) (msg : CapMessage),
      extract_cap line b = some msg →
        ((∃ m, msg.subcommand.2 ≤ m ∧ m < line.length ∧ spaceColonAt line m) →
          ∃ m, msg.subcommand.2 ≤ m ∧ m < line.length ∧ spaceColonAt line m ∧
            (∀ m', msg.subcommand.2 ≤ m' → m' < m → ¬ spaceColonAt line m') ∧
            msg.trailing = (m + 1, line.length)) ∧
        ((∀ m, msg.subcommand.2 ≤ m → m < line.length → ¬ spaceColonAt line m) →
          ((∃ m c, msg.subcommand.2 ≤ m ∧ m < line.length ∧
              line.get? m = some c ∧ c ≠ spaceByte) →
            isLastTokenRange line msg.subcommand.2 msg.trailing.1 msg.trailing.2) ∧
          ((∀ m, msg.subcommand.2 ≤ m → m < line.length →
              line.get? m = some spaceByte) →
            msg.trailing.1 = msg.trailing.2))) := by
  refine ⟨by decide, by decide, ?_, ?_, ?_⟩
  · intro line mc ms h1 h2
    obtain ⟨_, _, hm1⟩ := extract_cap_some line false mc h1
    obtain ⟨_, _, hm2⟩ := extract_cap_some line true ms h2
    subst hm1
    subst hm2
    exact ⟨rfl, rfl⟩
  · intro line b msg h
    obtain ⟨_, _, hm⟩ := extract_cap_some line b msg h
    subst hm
    exact ⟨rfl, fun m c him hm hc => skipNonSpaces_holds line _ m c him hm hc,
      fun c hc => skipNonSpaces_stop line _ c hc⟩
  · intro line b msg h
    obtain ⟨h4, _, hm⟩ := extract_cap_some line b msg h
    subst hm
    exact capTrailing_cases line (capSubEnd line b)
      (by have := capSubEnd_ge line b; omega)
      (fun c hc => skipNonSpaces_stop line _ c hc)

/-- The message `extract_cap` returns on `"CAP REQ :multi-prefix sasl"`
as a *server* line: the client-identifier skip consumes `REQ`, so the
subcommand becomes `:multi-prefix` and the trailing the last token
`sasl`. -/
def capReqSrvMsg : CapMessage := ⟨(8, 21), (22, 26)⟩

/-- The message `extract_cap` returns on `"CAP REQ :multi-prefix sasl"`
as a client line. -/
def capReqCliMsg : CapMessage := ⟨(4, 7), (9, 26)⟩

/-- Witness for C5: the hypotheses of the server/client conjunct hold at
the concrete line `"CAP REQ :multi-prefix sasl"`. -/
theorem extract_cap_fields_witness :
    capReqCliMsg.subcommand.1 =
      skipSpaces exLineCapReq (skipPrelude exLineCapReq + 4) ∧
    capReqSrvMsg.subcommand.1 =
      skipTokenSpaces exLineCapReq capReqCliMsg.subcommand.1 :=
  extract_cap_fields.2.2.1 exLineCapReq capReqCliMsg capReqSrvMsg
    (by decide) (by decide)

/-! ## Claim C6 — `extract_verb` -/

/-- **C6.** `extract_verb` skips leading spaces, an optional `@` tags
token, and an optional `:` prefix token, and returns the following run of
non-space bytes; the result is empty when no such run remains.
Conjuncts: the two literal cases of the spec
(`extract_verb("  @tag=value  TEST    arg :long arg") = "TEST"` and
`extract_verb(":server   ") = ""`), and for every line: the returned
range `(i, j)` is a run of non-space bytes (`i ≤ j ≤ line.length`, no
space inside), maximal on the right (the byte at `j`, if any, is a
space), delimited on the left (`i = 0` or the byte at `i - 1` is a
space), and empty exactly when the prelude consumed the whole line. -/
theorem extract_verb_fields :
    extract_verb_slice exLineVerbTags = [84, 69, 83, 84] ∧
    extract_verb_slice exLineVerbPrefix = [] ∧
    ∀ line : List Nat,
      (extract_verb line).1 ≤ (extract_verb line).2 ∧
      (extract_verb line).2 ≤ line.length ∧
      (∀ m c, (extract_verb line).1 ≤ m → m < (extract_verb line).2 →
        line.get? m = some c → c ≠ spaceByte) ∧
      (∀ c, line.get? (extract_verb line).2 = some c → c = spaceByte) ∧
      ((extract_verb line).1 < (extract_verb line).2 →
        (extract_verb line).1 = 0 ∨
          line.get? ((extract_verb line).1 - 1) = some spaceByte) ∧
      ((extract_verb line).1 = (extract_verb line).2 ↔
        line.length ≤ (extract_verb line).1) := by
  refine ⟨by decide, by decide, fun line => ?_⟩
  have hfst : (extract_verb line).1 = skipPrelude line := rfl
  have hsnd : (extract_verb line).2 = skipNonSpaces line (skipPrelude line) := rfl
  rw [hfst, hsnd]
  refine ⟨skipNonSpaces_ge line _, skipNonSpaces_le_length line _ (skipPrelude_le_length line),
    fun m c him hm hc => skipNonSpaces_holds line _ m c him hm hc,
    fun c hc => skipNonSpaces_stop line _ c hc, fun hlt => ?_, ?_, ?_⟩
  · refine skipPrelude_prev line ?_
    exact lt_of_lt_of_le hlt (skipNonSpaces_le_length line _ (skipPrelude_le_length line))
  · intro heq
    by_contra hcon
    push_neg at hcon
    have hc := List.get?_eq_get hcon
    have hne := skipPrelude_stop line _ hc
    have hadv := skipNonSpaces_advance line _ _ hc hne
    omega
  · intro hge
    exact (skipNonSpaces_of_ge line _ hge).symm

/-- Witness for C6: the hypotheses of the left-delimitation conjunct
hold at the concrete tags example line (the verb starts at position 14,
preceded by a space). -/
theorem extract_verb_fields_witness :
    (extract_verb exLineVerbTags).1 = 0 ∨
    exLineVerbTags.get? ((extract_verb exLineVerbTags).1 - 1) = some spaceByte :=
  (extract_verb_fields.2.2 exLineVerbTags).2.2.2.2.1 (by decide)

/-! ## Claim C7 — `extract_cap` negative result -/

/-- **C7.** `extract_cap` returns `none` if and only if, after the
prelude (leading spaces, optional `@` tags token, optional `:` prefix
token), the next four bytes are not exactly `"CAP "`; in every other
case it returns a match.  Includes the spec's literal case
`extract_cap("NICK", is_server := false) = none`. -/
theorem extract_cap_no_match :
    (∀ (line : List Nat) (is_server : Bool),
      extract_cap line is_server = none ↔
        (line.length < skipPrelude line + 4 ∨
          sliceR line (skipPrelude line) (skipPrelude line + 4) ≠ capBytes)) ∧
    extract_cap exLineNick false = none := by
  refine ⟨fun line is_server => ?_, by decide⟩
  unfold extract_cap
  split
  · next h => simpa using h
  · next h => simpa using h

/-! ## The splice buffer (`src/splice.rs`)

Byte source and destination endpoints are modelled by the result of the
one call the buffer makes to them: a source read yields a byte chunk
(of at most the offered slice length), would-block, or an I/O error; a
destination write yields the count of bytes accepted, would-block, or
an error.  `try_nb!` maps would-block to `Ok(Async::NotReady)` and
propagates other errors. -/

/-- Size of buffered data (`BUFFER_SIZE = 4096`). -/
def BUFFER_SIZE : Nat := 4096

/-- The result of one call to an endpoint (`Result` of a non-blocking
`read`/`write`, with `WouldBlock` separated as `try_nb!` does). -/
inductive IoStep (α : Type) where
  | ok (a : α)
  | wouldBlock
  | ioerr
deriving Repr, DecidableEq

/-- `Poll<T, io::Error>`: ready with a value, not ready, or an error. -/
inductive PollR (α : Type) where
  | ready (a : α)
  | notReady
  | ioerr
deriving Repr, DecidableEq

/-- `SpliceBuffer`: the byte arena with its two cursors and the two
parked-task slots.  A parked task is identified by a number (the Rust
`task::Task` handle); `none` means no waiter. -/
structure SpliceBuffer where
  data : List Nat
  start : Nat
  end_ : Nat
  parked_not_empty : Option Nat
  parked_not_full : Option Nat
deriving Repr, DecidableEq

namespace SpliceBuffer

/-- `SpliceBuffer::new`.  The Rust code allocates the arena with
`unsafe { mem::uninitialized() }`, so the initial contents of `data`
are arbitrary: the embedding takes them as the parameter `junk`. -/
def new (junk : List Nat) : SpliceBuffer :=
  { data := junk, start := 0, end_ := 0,
    parked_not_empty := none, parked_not_full := none }

/-- `self.start >= self.end` -/
def is_empty (b : SpliceBuffer) : Bool := b.end_ ≤ b.start

/-- `self.end >= BUFFER_SIZE` -/
def is_full (b : SpliceBuffer) : Bool := BUFFER_SIZE ≤ b.end_

/-- `poll_not_empty`, parking the current task `task` when empty;
returns the updated buffer and whether the buffer was ready. -/
def poll_not_empty (b : SpliceBuffer) (task : Nat) : SpliceBuffer × Bool :=
  if b.is_empty then ({ b with parked_not_empty := some task }, false)
  else (b, true)

/-- `poll_not_full`, parking the current task `task` when full. -/
def poll_not_full (b : SpliceBuffer) (task : Nat) : SpliceBuffer × Bool :=
  if b.is_full then ({ b with parked_not_full := some task }, false)
  else (b, true)

end SpliceBuffer

/-- Overwrite `data` at position `pos` with `chunk`: the effect on the
arena of `src.read(&mut self.data[self.end..])` returning
`chunk.length` bytes. -/
def writeAt (data : List Nat) (pos : Nat) (chunk : List Nat) : List Nat :=
  data.take pos ++ chunk ++ data.drop (pos + chunk.length)

namespace SpliceBuffer

/-- `SpliceBuffer::write` (lines 64–87 of `src/splice.rs`): drain the
readable region to the destination.  `dres = ok wsize` models
`dest.write(&self.data[self.start..self.end])` accepting the first
`wsize` bytes of the offered slice. -/
def write (b : SpliceBuffer) (task : Nat) (dres : IoStep Nat) :
    SpliceBuffer × PollR Nat :=
  match b.poll_not_empty task with
  | (b1, false) => (b1, .notReady)
  | (b1, true) =>
    match dres with
    | .wouldBlock => (b1, .notReady)
    | .ioerr => (b1, .ioerr)
    | .ok wsize =>
      let b2 := if b1.start + wsize = b1.end_ then
                  { b1 with start := 0, end_ := 0 }
                else { b1 with start := b1.start + wsize }
      let b3 := (b2.poll_not_empty task).1
      let b4 := if ¬ b3.is_full = true then { b3 with parked_not_full := none }
                else b3
      (b4, .ready wsize)

/-- `SpliceBuffer::read` (lines 89–107 of `src/splice.rs`): fill the
writable region from the source.  `rres = ok chunk` models
`src.read(&mut self.data[self.end..])` writing `chunk` into the slice
and returning its length. -/
def read (b : SpliceBuffer) (task : Nat) (rres : IoStep (List Nat)) :
    SpliceBuffer × PollR Nat :=
  match b.poll_not_full task with
  | (b1, false) => (b1, .notReady)
  | (b1, true) =>
    match rres with
    | .wouldBlock => (b1, .notReady)
    | .ioerr => (b1, .ioerr)
    | .ok chunk =>
      let b2 := { b1 with data := writeAt b1.data b1.end_ chunk,
                          end_ := b1.end_ + chunk.length }
      let b3 := (b2.poll_not_full task).1
      let b4 := if ¬ b3.is_empty = true then { b3 with parked_not_empty := none }
                else b3
      (b4, .ready chunk.length)

/-- The cursor/arena well-formedness invariant of the spec
(`0 <= start <= end <= C`, arena of capacity `C`). -/
def WF (b : SpliceBuffer) : Prop :=
  b.start ≤ b.end_ ∧ b.end_ ≤ BUFFER_SIZE ∧ b.data.length = BUFFER_SIZE

instance (b : SpliceBuffer) : Decidable b.WF := by
  unfold WF
  infer_instance

/-- The bytes currently buffered: the readable region `[start, end)`. -/
def contents (b : SpliceBuffer) : List Nat :=
  (b.data.drop b.start).take (b.end_ - b.start)

/-! ### Case analysis of `read` and `write` -/

theorem read_full (b : SpliceBuffer) (task : Nat) (rres : IoStep (List Nat))
    (h : b.is_full = true) :
    b.read task rres = ({ b with parked_not_full := some task }, .notReady) := by
  simp [read, poll_not_full, h]

theorem read_block (b : SpliceBuffer) (task : Nat)
    (h : b.is_full = false) :
    b.read task .wouldBlock = (b, .notReady) := by
  simp [read, poll_not_full, h]

theorem read_err (b : SpliceBuffer) (task : Nat)
    (h : b.is_full = false) :
    b.read task .ioerr = (b, .ioerr) := by
  simp [read, poll_not_full, h]

theorem read_ok_parts (b : SpliceBuffer) (task : Nat) (chunk : List Nat)
    (h : b.is_full = false) :
    (b.read task (.ok chunk)).1.data = writeAt b.data b.end_ chunk ∧
    (b.read task (.ok chunk)).1.start = b.start ∧
    (b.read task (.ok chunk)).1.end_ = b.end_ + chunk.length ∧
    (b.read task (.ok chunk)).2 = .ready chunk.length := by
  simp only [read, poll_not_full, h, Bool.false_eq_true, if_false]
  split <;> split <;> simp

theorem write_empty (b : SpliceBuffer) (task : Nat) (dres : IoStep Nat)
    (h : b.is_empty = true) :
    b.write task dres = ({ b with parked_not_empty := some task }, .notReady) := by
  simp [write, poll_not_empty, h]

theorem write_block (b : SpliceBuffer) (task : Nat)
    (h : b.is_empty = false) :
    b.write task .wouldBlock = (b, .notReady) := by
  simp [write, poll_not_empty, h]

theorem write_err (b : SpliceBuffer) (task : Nat)
    (h : b.is_empty = false) :
    b.write task .ioerr = (b, .ioerr) := by
  simp [write, poll_not_empty, h]

theorem write_ok_parts (b : SpliceBuffer) (task : Nat) (wsize : Nat)
    (h : b.is_empty = false) :
    (b.write task (.ok wsize)).1.data = b.data ∧
    (b.write task (.ok wsize)).1.start =
      (if b.start + wsize = b.end_ then 0 else b.start + wsize) ∧
    (b.write task (.ok wsize)).1.end_ =
      (if b.start + wsize = b.end_ then 0 else b.end_) ∧
    (b.write task (.ok wsize)).2 = .ready wsize := by
  simp only [write, poll_not_empty, h, Bool.false_eq_true, if_false]
  split <;> split <;> split <;> simp

/-! ### Contents and invariant lemmas -/

theorem take_len_drop_append (A B : List Nat) (s : Nat) (_hs : s ≤ A.length) :
    ((A ++ B).drop s).take (A.length - s) = A.drop s := by
  rw [List.drop_append_eq_append_drop, List.take_append_eq_append_take]
  have h1 : (A.drop s).length = A.length - s := List.length_drop ..
  rw [List.take_of_length_le (le_of_eq h1), h1, Nat.sub_self, List.take_zero,
    List.append_nil]

theorem contents_read_ok (b : SpliceBuffer) (task : Nat) (chunk : List Nat)
    (hwf : b.WF) (h : b.is_full = false)
    (_hlen : chunk.length ≤ BUFFER_SIZE - b.end_) :
    (b.read task (.ok chunk)).1.contents = b.contents ++ chunk := by
  obtain ⟨hd, hs, he, _⟩ := read_ok_parts b task chunk h
  obtain ⟨h1, h2, h3⟩ := hwf
  unfold contents
  rw [hd, hs, he]
  unfold writeAt
  have hA : (b.data.take b.end_ ++ chunk).length = b.end_ + chunk.length := by
    rw [List.length_append, List.length_take]
    omega
  have hmain := take_len_drop_append (b.data.take b.end_ ++ chunk)
    (b.data.drop (b.end_ + chunk.length)) b.start (by rw [hA]; omega)
  rw [hA] at hmain
  rw [hmain]
  have hlt : (b.data.take b.end_).length = b.end_ := by
    rw [List.length_take]
    omega
  rw [List.drop_append_eq_append_drop, hlt, Nat.sub_eq_zero_of_le h1,
    List.drop_zero, List.drop_take]

theorem contents_write_ok (b : SpliceBuffer) (task : Nat) (wsize : Nat)
    (hwf : b.WF) (h : b.is_empty = false)
    (hw : wsize ≤ b.end_ - b.start) :
    (b.write task (.ok wsize)).1.contents = b.contents.drop wsize ∧
    (b.data.drop b.start).take wsize = b.contents.take wsize := by
  obtain ⟨hd, hs, he, _⟩ := write_ok_parts b task wsize h
  obtain ⟨h1, h2, h3⟩ := hwf
  constructor
  · unfold contents
    rw [hd, hs, he]
    by_cases hreset : b.start + wsize = b.end_
    · rw [if_pos hreset, if_pos hreset]
      have hlen2 : ((b.data.drop b.start).take (b.end_ - b.start)).length ≤ wsize := by
        rw [List.length_take, List.length_drop]
        omega
      rw [List.drop_eq_nil_of_le hlen2]
      simp
    · rw [if_neg hreset, if_neg hreset, List.drop_take, List.drop_drop]
      have harith : b.end_ - b.start - wsize = b.end_ - (b.start + wsize) := by omega
      rw [harith]
  · unfold contents
    rw [List.take_take, min_eq_left hw]

theorem contents_of_empty (b : SpliceBuffer) (h : b.is_empty = true) :
    b.contents = [] := by
  unfold contents
  have : b.end_ - b.start = 0 := by
    have := of_decide_eq_true (by simpa [is_empty] using h)
    omega
  rw [this, List.take_zero]

theorem wf_read (b : SpliceBuffer) (task : Nat) (rres : IoStep (List Nat))
    (hwf : b.WF)
    (hok : ∀ chunk, rres = .ok chunk → chunk.length ≤ BUFFER_SIZE - b.end_) :
    (b.read task rres).1.WF := by
  obtain ⟨h1, h2, h3⟩ := hwf
  by_cases hf : b.is_full = true
  · rw [read_full b task rres hf]
    exact ⟨h1, h2, h3⟩
  · rw [Bool.not_eq_true] at hf
    cases rres with
    | wouldBlock =>
      rw [read_block b task hf]
      exact ⟨h1, h2, h3⟩
    | ioerr =>
      rw [read_err b task hf]
      exact ⟨h1, h2, h3⟩
    | ok chunk =>
      obtain ⟨hd, hs, he, _⟩ := read_ok_parts b task chunk hf
      have hc := hok chunk rfl
      refine ⟨?_, ?_, ?_⟩
      · rw [hs, he]; omega
      · rw [he]; omega
      · rw [hd]
        unfold writeAt
        rw [List.length_append, List.length_append, List.length_take,
          List.length_drop]
        omega

theorem wf_write (b : SpliceBuffer) (task : Nat) (dres : IoStep Nat)
    (hwf : b.WF)
    (hok : ∀ wsize, dres = .ok wsize → wsize ≤ b.end_ - b.start) :
    (b.write task dres).1.WF := by
  obtain ⟨h1, h2, h3⟩ := hwf
  by_cases hf : b.is_empty = true
  · rw [write_empty b task dres hf]
    exact ⟨h1, h2, h3⟩
  · rw [Bool.not_eq_true] at hf
    cases dres with
    | wouldBlock =>
      rw [write_block b task hf]
      exact ⟨h1, h2, h3⟩
    | ioerr =>
      rw [write_err b task hf]
      exact ⟨h1, h2, h3⟩
    | ok wsize =>
      obtain ⟨hd, hs, he, _⟩ := write_ok_parts b task wsize hf
      have hc := hok wsize rfl
      refine ⟨?_, ?_, ?_⟩
      · rw [hs, he]
        split <;> omega
      · rw [he]
        split <;> omega
      · rw [hd]; exact h3

end SpliceBuffer

/-! ### Sequences of buffer operations

One lifetime of a buffer is an arbitrary interleaving of `fill_from`
(`SpliceBuffer::read`) and `drain_to` (`SpliceBuffer::write`)
invocations, each with the endpoint's reply for that call. -/

/-- One invocation on the buffer: a fill with the source's reply, or a
drain with the destination's reply. -/
inductive SpliceOp where
  | fill (rres : IoStep (List Nat))
  | drain (dres : IoStep Nat)
deriving Repr, DecidableEq

/-- Execute one operation.  Returns the new buffer, the bytes received
from the source by this call (empty unless a fill returned ready), and
the bytes delivered to the destination (empty unless a drain returned
ready; a drain that returns `ready wsize` delivered the first `wsize`
bytes of the readable region). -/
def stepOp (b : SpliceBuffer) : SpliceOp → SpliceBuffer × List Nat × List Nat
  | .fill rres =>
    match b.read 0 rres, rres with
    | (b', .ready _), .ok chunk => (b', chunk, [])
    | (b', .ready _), _ => (b', [], [])
    | (b', _), _ => (b', [], [])
  | .drain dres =>
    match b.write 0 dres with
    | (b', .ready wsize) => (b', [], (b.data.drop b.start).take wsize)
    | (b', _) => (b', [], [])

/-- Execute a sequence of operations, concatenating the received and
delivered chunks in order. -/
def runOps (b : SpliceBuffer) : List SpliceOp → SpliceBuffer × List Nat × List Nat
  | [] => (b, [], [])
  | op :: rest =>
    let s := stepOp b op
    let r := runOps s.1 rest
    (r.1, s.2.1 ++ r.2.1, s.2.2 ++ r.2.2)

/-- The non-blocking I/O contract for one operation: a source fills at
most the offered slice `[end, C)` and a destination accepts at most the
offered slice `[start, end)` (when the buffer even consults them:
a full buffer never calls the source, an empty one never calls the
destination). -/
def validOp (b : SpliceBuffer) : SpliceOp → Bool
  | .fill (.ok chunk) => b.is_full || decide (chunk.length ≤ BUFFER_SIZE - b.end_)
  | .drain (.ok wsize) => b.is_empty || decide (wsize ≤ b.end_ - b.start)
  | _ => true

/-- The I/O contract along a whole sequence of operations. -/
def validOps (b : SpliceBuffer) : List SpliceOp → Bool
  | [] => true
  | op :: rest => validOp b op && validOps (stepOp b op).1 rest

theorem stepOp_preserves (b : SpliceBuffer) (op : SpliceOp)
    (hwf : b.WF) (hv : validOp b op = true) :
    (stepOp b op).1.WF ∧
    (stepOp b op).2.2 ++ (stepOp b op).1.contents =
      b.contents ++ (stepOp b op).2.1 := by
  cases op with
  | fill rres =>
    by_cases hf : b.is_full = true
    · rw [show stepOp b (.fill rres) = (({ b with parked_not_full := some 0 }), [], [])
          from by simp only [stepOp]; rw [SpliceBuffer.read_full b 0 rres hf]]
      exact ⟨hwf, by simp [SpliceBuffer.contents]⟩
    · rw [Bool.not_eq_true] at hf
      cases rres with
      | wouldBlock =>
        rw [show stepOp b (.fill .wouldBlock) = (b, [], [])
            from by simp only [stepOp]; rw [SpliceBuffer.read_block b 0 hf]]
        exact ⟨hwf, by simp⟩
      | ioerr =>
        rw [show stepOp b (.fill .ioerr) = (b, [], [])
            from by simp only [stepOp]; rw [SpliceBuffer.read_err b 0 hf]]
        exact ⟨hwf, by simp⟩
      | ok chunk =>
        have hlen : chunk.length ≤ BUFFER_SIZE - b.end_ := by
          have := hv
          unfold validOp at this
          rw [hf] at this
          simpa using this
        have hparts := SpliceBuffer.read_ok_parts b 0 chunk hf
        have hstep : stepOp b (.fill (.ok chunk)) = ((b.read 0 (.ok chunk)).1, chunk, []) := by
          simp only [stepOp]
          obtain ⟨-, -, -, h2⟩ := hparts
          rcases hread : b.read 0 (.ok chunk) with ⟨b', r⟩
          rw [hread] at h2
          cases h2
          rfl
        rw [hstep]
        refine ⟨SpliceBuffer.wf_read b 0 _ hwf (fun c hc => by cases hc; exact hlen), ?_⟩
        rw [SpliceBuffer.contents_read_ok b 0 chunk hwf hf hlen]
        simp
  | drain dres =>
    by_cases hf : b.is_empty = true
    · rw [show stepOp b (.drain dres) = (({ b with parked_not_empty := some 0 }), [], [])
          from by simp only [stepOp]; rw [SpliceBuffer.write_empty b 0 dres hf]]
      exact ⟨hwf, by simp [SpliceBuffer.contents]⟩
    · rw [Bool.not_eq_true] at hf
      cases dres with
      | wouldBlock =>
        rw [show stepOp b (.drain .wouldBlock) = (b, [], [])
            from by simp only [stepOp]; rw [SpliceBuffer.write_block b 0 hf]]
        exact ⟨hwf, by simp⟩
      | ioerr =>
        rw [show stepOp b (.drain .ioerr) = (b, [], [])
            from by simp only [stepOp]; rw [SpliceBuffer.write_err b 0 hf]]
        exact ⟨hwf, by simp⟩
      | ok wsize =>
        have hlen : wsize ≤ b.end_ - b.start := by
          have := hv
          unfold validOp at this
          rw [hf] at this
          simpa using this
        have hparts := SpliceBuffer.write_ok_parts b 0 wsize hf
        have hstep : stepOp b (.drain (.ok wsize)) =
            ((b.write 0 (.ok wsize)).1, [], (b.data.drop b.start).take wsize) := by
          simp only [stepOp]
          obtain ⟨-, -, -, h2⟩ := hparts
          rcases hwrite : b.write 0 (.ok wsize) with ⟨b', r⟩
          rw [hwrite] at h2
          cases h2
          rfl
        rw [hstep]
        obtain ⟨hc1, hc2⟩ := SpliceBuffer.contents_write_ok b 0 wsize hwf hf hlen
        refine ⟨SpliceBuffer.wf_write b 0 _ hwf (fun w hw => by cases hw; exact hlen), ?_⟩
        rw [hc1, hc2]
        simp [List.take_append_drop]

theorem runOps_preserves (ops : List SpliceOp) :
    ∀ b : SpliceBuffer, b.WF → validOps b ops = true →
      (runOps b ops).1.WF ∧
      (runOps b ops).2.2 ++ (runOps b ops).1.contents =
        b.contents ++ (runOps b ops).2.1 := by
  induction ops with
  | nil =>
    intro b hwf _
    exact ⟨hwf, by simp [runOps]⟩
  | cons op rest ih =>
    intro b hwf hv
    unfold validOps at hv
    rw [Bool.and_eq_true] at hv
    obtain ⟨hstep, hsum⟩ := stepOp_preserves b op hwf hv.1
    obtain ⟨hwf', heq⟩ := ih (stepOp b op).1 hstep hv.2
    refine ⟨by simpa [runOps] using hwf', ?_⟩
    show ((stepOp b op).2.2 ++ (runOps (stepOp b op).1 rest).2.2) ++
        (runOps (stepOp b op).1 rest).1.contents =
      b.contents ++ ((stepOp b op).2.1 ++ (runOps (stepOp b op).1 rest).2.1)
    rw [List.append_assoc, heq, ← List.append_assoc, hsum, List.append_assoc]

/-! ## Claim C3 — the cursor invariant -/

/-- **C3.** Under the endpoints' I/O contract (a source fills at most
the offered slice `[end, C)`, a destination accepts at most the offered
slice `[start, end)`), `read` and `write` preserve
`0 ≤ start ≤ end ≤ BUFFER_SIZE`; consequently the buffered count
`end - start` never exceeds `C = 4096`; and when the buffer is full a
fill attempt changes neither the arena nor the cursors, so it never
overwrites the readable region. -/
theorem splice_buffer_invariant :
    (∀ (b : SpliceBuffer) (task : Nat) (rres : IoStep (List Nat)),
      b.WF → (∀ chunk, rres = .ok chunk → chunk.length ≤ BUFFER_SIZE - b.end_) →
      (b.read task rres).1.WF) ∧
    (∀ (b : SpliceBuffer) (task : Nat) (dres : IoStep Nat),
      b.WF → (∀ wsize, dres = .ok wsize → wsize ≤ b.end_ - b.start) →
      (b.write task dres).1.WF) ∧
    (∀ b : SpliceBuffer, b.WF → b.end_ - b.start ≤ BUFFER_SIZE) ∧
    (∀ (b : SpliceBuffer) (task : Nat) (rres : IoStep (List Nat)),
      b.is_full = true →
      (b.read task rres).1.data = b.data ∧ (b.read task rres).1.start = b.start ∧
        (b.read task rres).1.end_ = b.end_) := by
  refine ⟨SpliceBuffer.wf_read, SpliceBuffer.wf_write, ?_, ?_⟩
  · intro b hwf
    obtain ⟨_, h2, _⟩ := hwf
    omega
  · intro b task rres hf
    rw [SpliceBuffer.read_full b task rres hf]
    exact ⟨rfl, rfl, rfl⟩

/-- Witness for C3: the invariant-preservation hypotheses hold at a
concrete fresh buffer receiving one 1-byte chunk. -/
theorem splice_buffer_invariant_witness :
    ((SpliceBuffer.new (List.replicate BUFFER_SIZE 0)).read 0 (.ok [5])).1.WF :=
  splice_buffer_invariant.1 (SpliceBuffer.new (List.replicate BUFFER_SIZE 0)) 0
    (.ok [5]) ⟨le_refl 0, Nat.zero_le _, by simp [SpliceBuffer.new]⟩
    (fun chunk hc => by cases hc; decide)

/-! ## Claim C10 — frame effects of blocked operations -/

/-- **C10.** When the buffer is full, `read` reports not-ready without
consulting the source and changes nothing but the not-full waiter slot,
which it replaces with the current task; symmetrically, when the buffer
is empty, `write` reports not-ready without consulting the destination
and changes only the not-empty waiter slot. -/
theorem splice_frame_effects :
    (∀ (b : SpliceBuffer) (task : Nat) (rres : IoStep (List Nat)),
      b.is_full = true →
      b.read task rres = ({ b with parked_not_full := some task }, .notReady)) ∧
    (∀ (b : SpliceBuffer) (task : Nat) (dres : IoStep Nat),
      b.is_empty = true →
      b.write task dres = ({ b with parked_not_empty := some task }, .notReady)) :=
  ⟨SpliceBuffer.read_full, SpliceBuffer.write_empty⟩

/-- A concrete full buffer (cursors `start = 0`, `end = 4096`). -/
def fullBuf : SpliceBuffer :=
  { data := List.replicate BUFFER_SIZE 7, start := 0, end_ := BUFFER_SIZE,
    parked_not_empty := none, parked_not_full := none }

/-- Witness for C10: the full-buffer hypothesis holds at a concrete
buffer; the fill attempt is turned away with only the waiter slot
replaced. -/
theorem splice_frame_effects_witness :
    fullBuf.read 3 (.ok [1]) =
      ({ fullBuf with parked_not_full := some 3 }, .notReady) :=
  splice_frame_effects.1 fullBuf 3 (.ok [1]) (by decide)

/-! ## Claim C1 — byte preservation -/

/-- **C1.** For every finite sequence of `fill_from`/`drain_to`
invocations on one buffer (sources and destinations replying with at
most the offered slice length), the concatenation of all bytes
delivered to the destination is a prefix of the concatenation of all
bytes received from the source, and once the buffer has drained empty
(the only state in which the pump finishes) the two are equal: no byte
is duplicated, dropped, or reordered. -/
theorem splice_byte_preservation :
    ∀ (junk : List Nat) (ops : List SpliceOp),
      junk.length = BUFFER_SIZE →
      validOps (SpliceBuffer.new junk) ops = true →
      List.IsPrefix (runOps (SpliceBuffer.new junk) ops).2.2
        (runOps (SpliceBuffer.new junk) ops).2.1 ∧
      ((runOps (SpliceBuffer.new junk) ops).1.is_empty = true →
        (runOps (SpliceBuffer.new junk) ops).2.2 =
          (runOps (SpliceBuffer.new junk) ops).2.1) := by
  intro junk ops hlen hv
  have hwf : (SpliceBuffer.new junk).WF := ⟨le_refl 0, Nat.zero_le _, hlen⟩
  obtain ⟨hwf', heq⟩ := runOps_preserves ops _ hwf hv
  have hcnil : (SpliceBuffer.new junk).contents = [] := by
    simp [SpliceBuffer.contents, SpliceBuffer.new]
  rw [hcnil, List.nil_append] at heq
  constructor
  · exact ⟨_, heq⟩
  · intro hemp
    have hnil := SpliceBuffer.contents_of_empty _ hemp
    rw [hnil, List.append_nil] at heq
    exact heq

/-- A demonstration run: fill 3 bytes, drain 2, hit a would-block,
drain the last byte (after which the cursors reset and the buffer is
empty). -/
def demoOps : List SpliceOp :=
  [.fill (.ok [7, 8, 9]), .drain (.ok 2), .fill .wouldBlock, .drain (.ok 1)]

/-- Witness for C1: the hypotheses of `splice_byte_preservation` hold
on the concrete run `demoOps`, whose delivered bytes equal its received
bytes. -/
theorem splice_byte_preservation_witness :
    (List.replicate BUFFER_SIZE 0).length = BUFFER_SIZE ∧
    validOps (SpliceBuffer.new (List.replicate BUFFER_SIZE 0)) demoOps = true ∧
    (runOps (SpliceBuffer.new (List.replicate BUFFER_SIZE 0)) demoOps).2.2 =
      (runOps (SpliceBuffer.new (List.replicate BUFFER_SIZE 0)) demoOps).2.1 :=
  ⟨by simp, by decide,
    (splice_byte_preservation (List.replicate BUFFER_SIZE 0) demoOps (by simp)
      (by decide)).2 (by decide)⟩

/-! ## Claim C8 — no zero-initialisation, but no junk exposure -/

/-- **C8 counterexample.** `SpliceBuffer::new` allocates the arena with
`unsafe { mem::uninitialized() }`, so its contents are arbitrary, not
zero-initialized: with arbitrary initial memory (here all ones) the
fresh buffer's arena differs from the all-zero arena. -/
theorem new_not_zeroed :
    (SpliceBuffer.new (List.replicate BUFFER_SIZE 1)).data ≠
      List.replicate BUFFER_SIZE 0 := by
  decide

/-- **C8 (amended).** `SpliceBuffer::new` leaves the arena contents
arbitrary (modelled by the `junk` parameter); nevertheless, whatever
those initial contents are, every byte the buffer ever delivers to the
destination is a byte previously received from the source — position
`k` of the delivered stream equals position `k` of the received
stream — so uninitialized memory is never exposed. -/
theorem splice_no_uninit_exposure :
    ∀ (junk : List Nat) (ops : List SpliceOp),
      junk.length = BUFFER_SIZE →
      validOps (SpliceBuffer.new junk) ops = true →
      ∀ k, k < (runOps (SpliceBuffer.new junk) ops).2.2.length →
        (runOps (SpliceBuffer.new junk) ops).2.2.get? k =
          (runOps (SpliceBuffer.new junk) ops).2.1.get? k := by
  intro junk ops hlen hv k hk
  have hwf : (SpliceBuffer.new junk).WF := ⟨le_refl 0, Nat.zero_le _, hlen⟩
  obtain ⟨hwf', heq⟩ := runOps_preserves ops _ hwf hv
  have hcnil : (SpliceBuffer.new junk).contents = [] := by
    simp [SpliceBuffer.contents, SpliceBuffer.new]
  rw [hcnil, List.nil_append] at heq
  rw [← heq]
  rw [List.get?_eq_getElem?, List.get?_eq_getElem?, List.getElem?_append_left hk]

/-- A second demonstration run, over junk-initialized memory. -/
def demoOps2 : List SpliceOp := [.fill (.ok [42]), .drain (.ok 1)]

/-- Witness for C8 (amended): with all-ones junk memory, the byte
delivered at position 0 is the byte received at position 0. -/
theorem splice_no_uninit_exposure_witness :
    (runOps (SpliceBuffer.new (List.replicate BUFFER_SIZE 1)) demoOps2).2.2.get? 0 =
      (runOps (SpliceBuffer.new (List.replicate BUFFER_SIZE 1)) demoOps2).2.1.get? 0 :=
  splice_no_uninit_exposure (List.replicate BUFFER_SIZE 1) demoOps2
    (by simp) (by decide) 0 (by decide)

/-! ## The pump future (`Splicer` in `src/splice.rs`)

`Splicer::poll` makes at most one buffer-read, one buffer-write and one
`shutdown` call per invocation; a `PollEnv` supplies the endpoints'
replies for those calls.  The spec's pump states map to the two flags:
`Streaming` is `eof_r = false`, `SourceClosed` is `eof_r = true` with
`eof_w = false`, `Finished` is both true. -/

/-- The endpoint replies available to one `poll` invocation:
the source's read reply, the destination's write reply, and the result
of `w.shutdown()` should it be called. -/
structure PollEnv where
  rres : IoStep (List Nat)
  wres : IoStep Nat
  sres : PollR Unit
deriving Repr, DecidableEq

/-- The `Splicer` future state. -/
structure Splicer where
  buf : SpliceBuffer
  eof_r : Bool
  eof_w : Bool
deriving Repr, DecidableEq

namespace Splicer

/-- `Splicer::new` (with the arena's uninitialized contents `junk`). -/
def new (junk : List Nat) : Splicer :=
  { buf := SpliceBuffer.new junk, eof_r := false, eof_w := false }

/-- Lines 140–149 of `src/splice.rs`: the fill block.  Returns the
updated state and whether `try!` aborted with an error. -/
def pollFill (s : Splicer) (rres : IoStep (List Nat)) : Splicer × Bool :=
  if s.eof_r then (s, false)
  else
    match s.buf.read 0 rres with
    | (b', .ioerr) => ({ s with buf := b' }, true)
    | (b', .ready n) => ({ s with buf := b', eof_r := n == 0 }, false)
    | (b', .notReady) => ({ s with buf := b' }, false)

/-- Lines 151–160: the drain block, including the
`eof_r && buf.is_empty()` check that sets `eof_w`. -/
def pollDrain (s : Splicer) (wres : IoStep Nat) : Splicer × Bool :=
  if s.eof_w then (s, false)
  else
    match s.buf.write 0 wres with
    | (b', .ioerr) => ({ s with buf := b' }, true)
    | (b', _) =>
      let s1 := { s with buf := b' }
      (if s1.eof_r = true ∧ s1.buf.is_empty = true then { s1 with eof_w := true }
       else s1, false)

/-- `Splicer::poll` (lines 139–168).  The third component records
whether `w.shutdown()` was invoked during this step; when it was, the
step's result is exactly the shutdown's result. -/
def poll (s : Splicer) (env : PollEnv) : Splicer × PollR Unit × Bool :=
  match s.pollFill env.rres with
  | (s1, true) => (s1, .ioerr, false)
  | (s1, false) =>
    match s1.pollDrain env.wres with
    | (s2, true) => (s2, .ioerr, false)
    | (s2, false) =>
      if s2.eof_r = true ∧ s2.eof_w = true then (s2, env.sres, true)
      else (s2, .notReady, false)

end Splicer

/-- 1 when this poll outcome is a completed (`Ready`) shutdown. -/
def shutdownDone (p : Splicer × PollR Unit × Bool) : Nat :=
  if p.2.2 = true ∧ p.2.1 = .ready () then 1 else 0

/-- Drive a `Splicer` with successive environments, as an executor
does: stop at the first result other than not-ready (a completed future
is not polled again).  Returns the final state, the final result, and
the number of completed shutdowns over the whole run. -/
def runSplicer (s : Splicer) : List PollEnv → Splicer × PollR Unit × Nat
  | [] => (s, .notReady, 0)
  | env :: rest =>
    match (s.poll env).2.1 with
    | .notReady =>
      ((runSplicer (s.poll env).1 rest).1,
       (runSplicer (s.poll env).1 rest).2.1,
       shutdownDone (s.poll env) + (runSplicer (s.poll env).1 rest).2.2)
    | r => ((s.poll env).1, r, shutdownDone (s.poll env))

/-! ### Lemmas about `Splicer.poll` -/

namespace Splicer

theorem pollFill_eof_w (s : Splicer) (rres : IoStep (List Nat)) :
    (s.pollFill rres).1.eof_w = s.eof_w := by
  unfold pollFill
  split
  · rfl
  · rcases h : s.buf.read 0 rres with ⟨b', r⟩
    cases r <;> rfl

theorem pollDrain_eof_r (s : Splicer) (wres : IoStep Nat) :
    (s.pollDrain wres).1.eof_r = s.eof_r := by
  unfold pollDrain
  split
  · rfl
  · rcases h : s.buf.write 0 wres with ⟨b', r⟩
    cases r
    · dsimp only
      split <;> rfl
    · dsimp only
      split <;> rfl
    · rfl

theorem pollFill_eof_r (s : Splicer) (rres : IoStep (List Nat)) :
    ((s.pollFill rres).1.eof_r = true ∧ s.eof_r = false) ↔
      (s.eof_r = false ∧ s.buf.is_full = false ∧ rres = .ok []) := by
  by_cases hr : s.eof_r = true
  · simp [pollFill, hr]
  · rw [Bool.not_eq_true] at hr
    rw [pollFill, if_neg (by simp [hr])]
    by_cases hf : s.buf.is_full = true
    · rw [SpliceBuffer.read_full s.buf 0 rres hf]
      simp [hr, hf]
    · rw [Bool.not_eq_true] at hf
      cases rres with
      | wouldBlock =>
        rw [SpliceBuffer.read_block s.buf 0 hf]
        simp [hr, hf]
      | ioerr =>
        rw [SpliceBuffer.read_err s.buf 0 hf]
        simp [hr, hf]
      | ok chunk =>
        obtain ⟨-, -, -, h2⟩ := SpliceBuffer.read_ok_parts s.buf 0 chunk hf
        rcases hread : s.buf.read 0 (.ok chunk) with ⟨b', r⟩
        rw [hread] at h2
        dsimp only at h2
        subst h2
        dsimp only
        constructor
        · rintro ⟨h1, -⟩
          refine ⟨hr, hf, ?_⟩
          have hlen : chunk.length = 0 := by simpa using h1
          rw [List.length_eq_zero] at hlen
          rw [hlen]
        · rintro ⟨-, -, h1⟩
          cases h1
          exact ⟨by simp, hr⟩

theorem pollDrain_eof_w (s : Splicer) (wres : IoStep Nat)
    (h : (s.pollDrain wres).1.eof_w = true) (h0 : s.eof_w = false) :
    (s.pollDrain wres).1.eof_r = true ∧
    (s.pollDrain wres).1.buf.is_empty = true ∧
    (s.pollDrain wres).2 = false := by
  rw [pollDrain, if_neg (by simp [h0])] at h ⊢
  rcases hw : s.buf.write 0 wres with ⟨b', r⟩
  cases r with
  | ioerr =>
    rw [hw] at h
    simp [h0] at h
  | ready n =>
    rw [hw] at h
    by_cases hc : s.eof_r = true ∧ b'.is_empty = true
    · refine ⟨?_, ?_, ?_⟩ <;> simp [hc]
    · simp [hc, h0] at h
  | notReady =>
    rw [hw] at h
    by_cases hc : s.eof_r = true ∧ b'.is_empty = true
    · refine ⟨?_, ?_, ?_⟩ <;> simp [hc]
    · simp [hc, h0] at h

theorem poll_eof_r (s : Splicer) (env : PollEnv) :
    (s.poll env).1.eof_r = (s.pollFill env.rres).1.eof_r := by
  rw [poll]
  rcases hp : s.pollFill env.rres with ⟨s1, er⟩
  cases er
  · dsimp only
    rcases hd : s1.pollDrain env.wres with ⟨s2, ew⟩
    have hr2 : s2.eof_r = s1.eof_r := by
      have hgen := pollDrain_eof_r s1 env.wres
      rw [hd] at hgen
      exact hgen
    cases ew
    · dsimp only
      split
      · exact hr2
      · exact hr2
    · exact hr2
  · rfl

theorem poll_invoked (s : Splicer) (env : PollEnv)
    (h : (s.poll env).2.2 = true) :
    (s.poll env).1.eof_r = true ∧ (s.poll env).1.eof_w = true ∧
    (s.poll env).2.1 = env.sres := by
  rw [poll] at h ⊢
  rcases hp : s.pollFill env.rres with ⟨s1, er⟩
  rw [hp] at h
  cases er
  · dsimp only at h ⊢
    rcases hd : s1.pollDrain env.wres with ⟨s2, ew⟩
    rw [hd] at h
    cases ew
    · dsimp only at h ⊢
      by_cases hc : s2.eof_r = true ∧ s2.eof_w = true
      · rw [if_pos hc]
        exact ⟨hc.1, hc.2, rfl⟩
      · rw [if_neg hc] at h
        simp at h
    · simp at h
  · simp at h

theorem poll_ready_invoked (s : Splicer) (env : PollEnv)
    (h : (s.poll env).2.1 = .ready ()) : (s.poll env).2.2 = true := by
  rw [poll] at h ⊢
  rcases hp : s.pollFill env.rres with ⟨s1, er⟩
  rw [hp] at h
  cases er
  · dsimp only at h ⊢
    rcases hd : s1.pollDrain env.wres with ⟨s2, ew⟩
    rw [hd] at h
    cases ew
    · dsimp only at h ⊢
      by_cases hc : s2.eof_r = true ∧ s2.eof_w = true
      · rw [if_pos hc]
      · rw [if_neg hc] at h
        simp at h
    · simp at h
  · simp at h

theorem poll_finished (s : Splicer) (env : PollEnv)
    (h1 : s.eof_r = true) (h2 : s.eof_w = true) : (s.poll env).1 = s := by
  rw [poll, pollFill, if_pos (by simp [h1])]
  show (match (s.pollDrain env.wres : Splicer × Bool) with
    | (s2, true) => (s2, PollR.ioerr, false)
    | (s2, false) =>
      if s2.eof_r = true ∧ s2.eof_w = true then (s2, env.sres, true)
      else (s2, PollR.notReady, false)).1 = s
  rw [pollDrain, if_pos (by simp [h2])]
  dsimp only
  rw [if_pos ⟨h1, h2⟩]

end Splicer

theorem runSplicer_count (envs : List PollEnv) :
    ∀ s : Splicer, (runSplicer s envs).2.2 ≤ 1 ∧
      ((runSplicer s envs).2.2 = 1 ↔ (runSplicer s envs).2.1 = .ready ()) := by
  induction envs with
  | nil =>
    intro s
    refine ⟨by simp [runSplicer], ?_⟩
    simp [runSplicer]
  | cons env rest ih =>
    intro s
    rw [runSplicer]
    rcases hp : s.poll env with ⟨s', r, inv⟩
    cases r with
    | notReady =>
      dsimp only
      have hz : shutdownDone (s', PollR.notReady, inv) = 0 := by
        simp [shutdownDone]
      rw [hz, Nat.zero_add]
      exact ih s'
    | ready u =>
      cases u
      have hinv : inv = true := by
        have hri := Splicer.poll_ready_invoked s env (by rw [hp])
        rw [hp] at hri
        exact hri
      subst hinv
      dsimp only
      simp [shutdownDone]
    | ioerr =>
      dsimp only
      simp [shutdownDone]

/-! ## Claim C4 — the pump state machine -/

/-- **C4.** In every execution of the pump's step relation: the pump
leaves `Streaming` (sets `eof_r`) exactly when a fill attempt receives
a zero-length read (conjunct 1); it moves to `Finished` (sets `eof_w`)
only in a step whose final buffer is empty and whose source side is
closed (conjunct 2); the destination's `shutdown` is invoked only in
the `Finished` configuration, and the step's result is then the
shutdown's own result (conjunct 3); over a pump's whole lifetime — a
run polled until its first non-not-ready result — the shutdown
completes at most once, and exactly once precisely when the pump
reports `Ready` (conjunct 4); and no step ever changes the state of a
`Finished` pump (conjunct 5). -/
theorem splicer_state_machine :
    (∀ (s : Splicer) (env : PollEnv),
      ((s.poll env).1.eof_r = true ∧ s.eof_r = false) ↔
        (s.eof_r = false ∧ s.buf.is_full = false ∧ env.rres = .ok [])) ∧
    (∀ (s : Splicer) (env : PollEnv),
      (s.poll env).1.eof_w = true → s.eof_w = false →
        (s.poll env).1.eof_r = true ∧ (s.poll env).1.buf.is_empty = true) ∧
    (∀ (s : Splicer) (env : PollEnv),
      (s.poll env).2.2 = true →
        (s.poll env).1.eof_r = true ∧ (s.poll env).1.eof_w = true ∧
          (s.poll env).2.1 = env.sres) ∧
    (∀ (s : Splicer) (envs : List PollEnv),
      (runSplicer s envs).2.2 ≤ 1 ∧
        ((runSplicer s envs).2.2 = 1 ↔ (runSplicer s envs).2.1 = .ready ())) ∧
    (∀ (s : Splicer) (env : PollEnv),
      s.eof_r = true → s.eof_w = true → (s.poll env).1 = s) := by
  refine ⟨?_, ?_, Splicer.poll_invoked, fun s envs => runSplicer_count envs s,
    Splicer.poll_finished⟩
  · intro s env
    rw [Splicer.poll_eof_r]
    exact Splicer.pollFill_eof_r s env.rres
  · intro s env h h0
    rw [Splicer.poll] at h ⊢
    rcases hp : s.pollFill env.rres with ⟨s1, er⟩
    rw [hp] at h
    have h1w : s1.eof_w = false := by
      have hfw := Splicer.pollFill_eof_w s env.rres
      rw [hp] at hfw
      dsimp only at hfw
      rw [hfw]
      exact h0
    cases er
    · dsimp only at h ⊢
      rcases hd : s1.pollDrain env.wres with ⟨s2, ew⟩
      rw [hd] at h
      have hdw := Splicer.pollDrain_eof_w s1 env.wres
      rw [hd] at hdw
      cases ew
      · dsimp only at h ⊢
        by_cases hc : s2.eof_r = true ∧ s2.eof_w = true
        · rw [if_pos hc] at h ⊢
          dsimp only at h ⊢
          obtain ⟨ha, hb, -⟩ := hdw (by exact hc.2) h1w
          exact ⟨ha, hb⟩
        · rw [if_neg hc] at h ⊢
          dsimp only at h ⊢
          obtain ⟨ha, hb, -⟩ := hdw h h1w
          exact ⟨ha, hb⟩
      · dsimp only at h
        obtain ⟨-, -, hfalse⟩ := hdw h h1w
        simp at hfalse
    · dsimp only at h
      rw [h1w] at h
      simp at h

/-- A concrete `Finished` pump. -/
def finSplicer : Splicer :=
  { buf := SpliceBuffer.new (List.replicate BUFFER_SIZE 0),
    eof_r := true, eof_w := true }

/-- An environment whose endpoints would block. -/
def envBlocked : PollEnv :=
  { rres := .wouldBlock, wres := .wouldBlock, sres := .ready () }

/-- Witness for C4: the hypotheses of the terminal-state conjunct hold
at a concrete `Finished` pump, which a further step leaves unchanged. -/
theorem splicer_state_machine_witness :
    (finSplicer.poll envBlocked).1 = finSplicer :=
  splicer_state_machine.2.2.2.2 finSplicer envBlocked rfl rfl

/-! ## The relay composition (`src/main.rs`)

`main` pairs two accepted connections and spawns two *independent*
tasks on the executor, one `Splicer` per direction, each wrapped in
`IoTask`.  `IoTask::poll` passes `Ok(NotReady)` and `Ok(Ready)` through
and converts `Err(e)` to `Err(())` after logging; the executor drops a
task once it returns ready or an error and never polls it again.
There is no pair-level future joining the two directions. -/

/-- A spawned `IoTask<Splicer>` as the executor sees it: still running
with a splicer state, or completed (successfully, or with the logged
converted error `Err(())`). -/
inductive TaskState where
  | running (s : Splicer)
  | doneOk
  | doneErr
deriving Repr, DecidableEq

/-- One executor poll of a spawned task (`IoTask::poll`, lines 38–54 of
`src/main.rs`): a ready result or an error completes the task; a
completed task is not polled again. -/
def stepTask (t : TaskState) (env : PollEnv) : TaskState :=
  match t with
  | .running s =>
    match (s.poll env).2.1 with
    | .notReady => .running (s.poll env).1
    | .ready _ => .doneOk
    | .ioerr => .doneErr
  | t => t

/-- Poll one task across successive wakeups. -/
def runTask (t : TaskState) : List PollEnv → TaskState
  | [] => t
  | env :: rest => runTask (stepTask t env) rest

/-- The two tasks `main` spawns for one pair of connections
(lines 77–81: `Splicer::new(ar, bw)` and `Splicer::new(br, aw)`). -/
structure RelayPair where
  ab : TaskState
  ba : TaskState
deriving Repr, DecidableEq

/-- The freshly spawned pair. -/
def RelayPair.new (junkA junkB : List Nat) : RelayPair :=
  { ab := .running (Splicer.new junkA), ba := .running (Splicer.new junkB) }

/-- One executor round over the pair: each direction that is still
running is polled with its own environment. -/
def stepPair (p : RelayPair) (envA envB : PollEnv) : RelayPair :=
  { ab := stepTask p.ab envA, ba := stepTask p.ba envB }

/-- Successive executor rounds over the pair. -/
def runPair (p : RelayPair) : List (PollEnv × PollEnv) → RelayPair
  | [] => p
  | (ea, eb) :: rest => runPair (stepPair p ea eb) rest

/-- The buffered-byte high-water cursor of a still-running task
(0 for a completed task); used to observe progress. -/
def taskEnd : TaskState → Nat
  | .running s => s.buf.end_
  | _ => 0

/-- An environment in which the source errors at once. -/
def errEnv : PollEnv :=
  { rres := .ioerr, wres := .wouldBlock, sres := .ready () }

/-- An environment in which the source delivers one byte and the
destination would block. -/
def fillEnv : PollEnv :=
  { rres := .ok [9], wres := .wouldBlock, sres := .ready () }

/-- A fresh pair of relay tasks. -/
def relayDemo0 : RelayPair :=
  RelayPair.new (List.replicate BUFFER_SIZE 0) (List.replicate BUFFER_SIZE 0)

/-- Round 1: the a→b direction hits an I/O error; b→a merely blocks. -/
def relayDemo1 : RelayPair := stepPair relayDemo0 errEnv envBlocked

/-- Round 2, after the a→b error: b→a is polled again and receives a
byte. -/
def relayDemo2 : RelayPair := stepPair relayDemo1 envBlocked fillEnv

/-! ## Claim C2 — relay pair composition -/

/-- **C2 counterexample.** In the code there is no pair-level step that
terminates both directions on the first error: after the a→b task
errors in round 1 (it completes with the converted error), the b→a
task is *not* abandoned — the executor polls it again in round 2 and it
makes progress, buffering a byte.  This refutes "the pair terminates
with the first error observed while the other pump is abandoned (no
further steps)". -/
theorem relay_error_not_abandoned :
    relayDemo1.ab = TaskState.doneErr ∧
    taskEnd relayDemo1.ba = 0 ∧
    relayDemo2.ab = TaskState.doneErr ∧
    taskEnd relayDemo2.ba = 1 := by
  decide

/-- **C2 (amended).** `main` composes the two directional pumps as
independently spawned tasks with no pair-level step or aggregate
result: over any sequence of executor rounds each direction evolves
exactly as it would alone (conjunct 1); a completed task is never
polled again (conjunct 2); and a task completes with the (logged,
converted) error exactly when its own pump's step surfaces an I/O
error, leaving the other direction to run to its own completion
(conjuncts 1 and 3 together). -/
theorem relay_tasks_independent :
    (∀ (p : RelayPair) (rounds : List (PollEnv × PollEnv)),
      (runPair p rounds).ab = runTask p.ab (rounds.map Prod.fst) ∧
      (runPair p rounds).ba = runTask p.ba (rounds.map Prod.snd)) ∧
    (∀ env : PollEnv,
      stepTask .doneOk env = .doneOk ∧ stepTask .doneErr env = .doneErr) ∧
    (∀ (s : Splicer) (env : PollEnv),
      stepTask (.running s) env = .doneErr ↔ (s.poll env).2.1 = .ioerr) := by
  refine ⟨?_, fun env => ⟨rfl, rfl⟩, ?_⟩
  · intro p rounds
    induction rounds generalizing p with
    | nil => exact ⟨rfl, rfl⟩
    | cons round rest ih =>
      rcases round with ⟨ea, eb⟩
      exact ih (stepPair p ea eb)
  · intro s env
    rw [stepTask]
    rcases hr : (s.poll env).2.1 with u | - | -
    · simp
    · simp
    · simp

/-- Witness for C2 (amended), instantiating the independence conjunct
on the concrete two-round demonstration schedule. -/
theorem relay_tasks_independent_witness :
    (runPair relayDemo0 [(errEnv, envBlocked), (envBlocked, fillEnv)]).ba =
      runTask relayDemo0.ba [envBlocked, fillEnv] :=
  (relay_tasks_independent.1 relayDemo0
    [(errEnv, envBlocked), (envBlocked, fillEnv)]).2

end OxideProxy
